import Mathlib

/-!
Shallow embedding of the Bitcoin transaction codec from src/src/lib.rs.

Byte buffers are `List Nat` where each element stands for a `u8` (so a
well-formed buffer has all elements `< 256`).  Machine-integer casts are
written out explicitly: `x as u64` becomes `x % 2^64`, and the one place
where `usize` addition can wrap (Script.from_bytes, line 155 of the source)
models the wrap with an explicit `% 2^64`.  A Rust panic (out-of-bounds
slice, only reachable through that wrap) is modelled by the `panic`
constructor of `DecodeResult`; all other code paths are total.

Rust `Vec` lengths are bounded by `isize::MAX < 2^63`, so well-formedness
of a `Script` value bounds its payload length by `2^63`.
-/

namespace BtcCodec

/-- Little-endian byte list of width `w` for `n` (models `to_le_bytes` of a
`w`-byte integer; the value is implicitly truncated to `w` bytes, matching
the Rust fixed-width integer types). -/
def toLE : Nat → Nat → List Nat
  | 0, _ => []
  | w + 1, n => n % 256 :: toLE w (n / 256)

/-- Value of a little-endian byte list (models `from_le_bytes`). -/
def fromLE : List Nat → Nat
  | [] => 0
  | b :: rest => b + 256 * fromLE rest

/-- The two error values of `enum BitcoinError` (src lines 11-15). -/
inductive BitcoinError where
  | InsufficientBytes
  | InvalidFormat
deriving DecidableEq, Repr

/-- Outcome of a `from_bytes` call: `Ok((value, consumed))`, `Err(e)`, or a
Rust panic. -/
inductive DecodeResult (α : Type) where
  | ok : α → Nat → DecodeResult α
  | err : BitcoinError → DecodeResult α
  | panic : DecodeResult α
deriving DecidableEq, Repr

/-- `struct CompactSize { value: u64 }` (src lines 6-9). -/
structure CompactSize where
  value : Nat
deriving DecidableEq, Repr

/-- `CompactSize::new` (src lines 18-20). -/
def CompactSize.new (value : Nat) : CompactSize := ⟨value⟩

/-- `CompactSize::to_bytes` (src lines 22-41). -/
def CompactSize.to_bytes (c : CompactSize) : List Nat :=
  if c.value ≤ 0xFC then [c.value]
  else if c.value ≤ 0xFFFF then 0xFD :: toLE 2 c.value
  else if c.value ≤ 0xFFFFFFFF then 0xFE :: toLE 4 c.value
  else 0xFF :: toLE 8 c.value

/-- `CompactSize::from_bytes` (src lines 43-74).  The final branch of the
source's `match` is the `0xFF` arm; it is the fallthrough here.  The source
slice `bytes[1..k]` is written `t.take (k - 1)` with `bytes = b :: t`. -/
def CompactSize.from_bytes (bytes : List Nat) : DecodeResult CompactSize :=
  match bytes with
  | [] => .err .InsufficientBytes
  | b :: t =>
    if b ≤ 0xFC then .ok (CompactSize.new b) 1
    else if b = 0xFD then
      if t.length + 1 < 3 then .err .InsufficientBytes
      else .ok (CompactSize.new (fromLE (t.take 2))) 3
    else if b = 0xFE then
      if t.length + 1 < 5 then .err .InsufficientBytes
      else .ok (CompactSize.new (fromLE (t.take 4))) 5
    else
      if t.length + 1 < 9 then .err .InsufficientBytes
      else .ok (CompactSize.new (fromLE (t.take 8))) 9

/-- `struct Txid(pub [u8; 32])` (src line 78); the 32-byte array is a list
with a well-formedness side condition. -/
structure Txid where
  bytes : List Nat
deriving DecidableEq, Repr

/-- Value of a hexadecimal digit character, accepting both cases (the
behaviour of the `hex` crate used at src line 95). -/
def hexDigitVal (c : Char) : Option Nat :=
  if '0' ≤ c ∧ c ≤ '9' then some (c.toNat - 48)
  else if 'a' ≤ c ∧ c ≤ 'f' then some (c.toNat - 87)
  else if 'A' ≤ c ∧ c ≤ 'F' then some (c.toNat - 55)
  else none

/-- Lowercase hex digit for a value `< 16` (the `hex` crate's encoder emits
lowercase). -/
def hexChar (n : Nat) : Char :=
  if n < 10 then Char.ofNat (48 + n) else Char.ofNat (87 + n)

/-- `hex::encode`: each byte becomes two lowercase hex digits. -/
def hexEncode : List Nat → List Char
  | [] => []
  | b :: rest => hexChar (b / 16) :: hexChar (b % 16) :: hexEncode rest

/-- `hex::decode`: fails on odd length or any non-hex character. -/
def hexDecode : List Char → Option (List Nat)
  | [] => some []
  | [_] => none
  | c1 :: c2 :: rest =>
    match hexDigitVal c1, hexDigitVal c2, hexDecode rest with
    | some hi, some lo, some bs => some ((16 * hi + lo) :: bs)
    | _, _, _ => none

/-- `Serialize for Txid` (src lines 80-87): the textual form is the hex
encoding of the 32 bytes. -/
def Txid.serialize (t : Txid) : List Char := hexEncode t.bytes

/-- `Deserialize for Txid` (src lines 89-103): hex-decode the string, then
require exactly 32 bytes; both failure modes are format errors. -/
def Txid.deserialize (s : List Char) : Except BitcoinError Txid :=
  match hexDecode s with
  | none => .error .InvalidFormat
  | some bs => if bs.length ≠ 32 then .error .InvalidFormat else .ok ⟨bs⟩

/-- `struct OutPoint` (src lines 105-109). -/
structure OutPoint where
  txid : Txid
  vout : Nat
deriving DecidableEq, Repr

/-- `OutPoint::new` (src lines 112-117). -/
def OutPoint.new (txid : List Nat) (vout : Nat) : OutPoint := ⟨⟨txid⟩, vout⟩

/-- `OutPoint::to_bytes` (src lines 119-123): 32 txid bytes then 4 LE vout
bytes. -/
def OutPoint.to_bytes (o : OutPoint) : List Nat :=
  o.txid.bytes ++ toLE 4 o.vout

/-- `OutPoint::from_bytes` (src lines 125-134). -/
def OutPoint.from_bytes (bytes : List Nat) : DecodeResult OutPoint :=
  if bytes.length < 36 then .err .InsufficientBytes
  else .ok (OutPoint.new (bytes.take 32) (fromLE ((bytes.drop 32).take 4))) 36

/-- `struct Script { bytes: Vec<u8> }` (src lines 137-140). -/
structure Script where
  bytes : List Nat
deriving DecidableEq, Repr

/-- `Script::new` (src lines 143-145). -/
def Script.new (bytes : List Nat) : Script := ⟨bytes⟩

/-- `Script::to_bytes` (src lines 147-151): CompactSize length then the raw
payload; `self.bytes.len() as u64` is the cast `% 2^64`. -/
def Script.to_bytes (s : Script) : List Nat :=
  (CompactSize.new (s.bytes.length % 2 ^ 64)).to_bytes ++ s.bytes

/-- `Script::from_bytes` (src lines 153-161).  `consumed +
(len_prefix.value as usize)` is `usize` addition, which wraps: hence the
`% 2^64`.  The slice `bytes[consumed..total_len]` panics when
`total_len < consumed` (reachable exactly when the addition wrapped and the
length check still passed). -/
def Script.from_bytes (bytes : List Nat) : DecodeResult Script :=
  match CompactSize.from_bytes bytes with
  | .err e => .err e
  | .panic => .panic
  | .ok lenPfx consumed =>
    let total_len := (consumed + lenPfx.value) % 2 ^ 64
    if bytes.length < total_len then .err .InsufficientBytes
    else if total_len < consumed then .panic
    else .ok (Script.new ((bytes.drop consumed).take (total_len - consumed))) total_len

/-- `struct TransactionInput` (src lines 171-176). -/
structure TransactionInput where
  previous_output : OutPoint
  script_sig : Script
  sequence : Nat
deriving DecidableEq, Repr

/-- `TransactionInput::new` (src lines 179-185). -/
def TransactionInput.new (previous_output : OutPoint) (script_sig : Script)
    (sequence : Nat) : TransactionInput :=
  ⟨previous_output, script_sig, sequence⟩

/-- `TransactionInput::to_bytes` (src lines 187-192). -/
def TransactionInput.to_bytes (i : TransactionInput) : List Nat :=
  i.previous_output.to_bytes ++ i.script_sig.to_bytes ++ toLE 4 i.sequence

/-- `TransactionInput::from_bytes` (src lines 194-207). -/
def TransactionInput.from_bytes (bytes : List Nat) : DecodeResult TransactionInput :=
  match OutPoint.from_bytes bytes with
  | .err e => .err e
  | .panic => .panic
  | .ok outpoint oconsumed =>
    match Script.from_bytes (bytes.drop oconsumed) with
    | .err e => .err e
    | .panic => .panic
    | .ok script_sig sconsumed =>
      let total := oconsumed + sconsumed
      if bytes.length < total + 4 then .err .InsufficientBytes
      else .ok (TransactionInput.new outpoint script_sig
        (fromLE ((bytes.drop total).take 4))) (total + 4)

/-- `struct BitcoinTransaction` (src lines 210-215). -/
structure BitcoinTransaction where
  version : Nat
  inputs : List TransactionInput
  lock_time : Nat
deriving DecidableEq, Repr

/-- `BitcoinTransaction::new` (src lines 218-224). -/
def BitcoinTransaction.new (version : Nat) (inputs : List TransactionInput)
    (lock_time : Nat) : BitcoinTransaction :=
  ⟨version, inputs, lock_time⟩

/-- Concatenated encodings of a list of inputs (the `for` loop of
`BitcoinTransaction::to_bytes`, src lines 229-231). -/
def inputsBytes : List TransactionInput → List Nat
  | [] => []
  | i :: rest => i.to_bytes ++ inputsBytes rest

/-- `BitcoinTransaction::to_bytes` (src lines 226-234);
`self.inputs.len() as u64` is the cast `% 2^64`. -/
def BitcoinTransaction.to_bytes (tx : BitcoinTransaction) : List Nat :=
  toLE 4 tx.version ++ (CompactSize.new (tx.inputs.length % 2 ^ 64)).to_bytes
    ++ inputsBytes tx.inputs ++ toLE 4 tx.lock_time

/-- The `for _ in 0..cs.value` loop of `BitcoinTransaction::from_bytes`
(src lines 242-248): decode `count` inputs starting at `offset`, returning
the inputs and the final offset. -/
def decodeInputsLoop (bytes : List Nat) : Nat → Nat → DecodeResult (List TransactionInput)
  | offset, 0 => .ok [] offset
  | offset, count + 1 =>
    match TransactionInput.from_bytes (bytes.drop offset) with
    | .err e => .err e
    | .panic => .panic
    | .ok input consumed =>
      match decodeInputsLoop bytes (offset + consumed) count with
      | .err e => .err e
      | .panic => .panic
      | .ok inputs final => .ok (input :: inputs) final

/-- `BitcoinTransaction::from_bytes` (src lines 236-254). -/
def BitcoinTransaction.from_bytes (bytes : List Nat) : DecodeResult BitcoinTransaction :=
  if bytes.length < 4 then .err .InsufficientBytes
  else
    match CompactSize.from_bytes (bytes.drop 4) with
    | .err e => .err e
    | .panic => .panic
    | .ok cs cconsumed =>
      match decodeInputsLoop bytes (4 + cconsumed) cs.value with
      | .err e => .err e
      | .panic => .panic
      | .ok inputs offset =>
        if bytes.length < offset + 4 then .err .InsufficientBytes
        else .ok (BitcoinTransaction.new (fromLE (bytes.take 4)) inputs
          (fromLE ((bytes.drop offset).take 4))) (offset + 4)

/-! ## Well-formedness of in-memory values

These predicates say exactly that a model value corresponds to a Rust
value of the given type: integer fields fit their machine width, byte
lists hold bytes, the `Txid` array has 32 entries, and `Vec` lengths stay
below `isize::MAX` (we use the bound `2^63`). -/

/-- Every element is a byte. -/
def bytesOk (l : List Nat) : Prop := ∀ b ∈ l, b < 256

instance (l : List Nat) : Decidable (bytesOk l) := by
  unfold bytesOk; infer_instance

/-- `value` fits in `u64`. -/
def CompactSize.wf (c : CompactSize) : Prop := c.value < 2 ^ 64

/-- Exactly 32 byte entries. -/
def Txid.wf (t : Txid) : Prop := t.bytes.length = 32 ∧ bytesOk t.bytes

/-- Well-formed txid and a `u32` vout. -/
def OutPoint.wf (o : OutPoint) : Prop := o.txid.wf ∧ o.vout < 2 ^ 32

/-- Byte payload of a realizable `Vec<u8>` length. -/
def Script.wf (s : Script) : Prop := bytesOk s.bytes ∧ s.bytes.length < 2 ^ 63

/-- All fields well-formed, sequence a `u32`. -/
def TransactionInput.wf (i : TransactionInput) : Prop :=
  i.previous_output.wf ∧ i.script_sig.wf ∧ i.sequence < 2 ^ 32

/-- All fields well-formed; the input count fits in `u64` (a Rust `Vec`
cannot be longer). -/
def BitcoinTransaction.wf (tx : BitcoinTransaction) : Prop :=
  tx.version < 2 ^ 32 ∧ (∀ i ∈ tx.inputs, i.wf) ∧
    tx.inputs.length < 2 ^ 64 ∧ tx.lock_time < 2 ^ 32

instance (c : CompactSize) : Decidable c.wf := by unfold CompactSize.wf; infer_instance
instance (t : Txid) : Decidable t.wf := by unfold Txid.wf; infer_instance
instance (o : OutPoint) : Decidable o.wf := by unfold OutPoint.wf; infer_instance
instance (s : Script) : Decidable s.wf := by unfold Script.wf; infer_instance
instance (i : TransactionInput) : Decidable i.wf := by
  unfold TransactionInput.wf; infer_instance
instance (tx : BitcoinTransaction) : Decidable tx.wf := by
  unfold BitcoinTransaction.wf; infer_instance

/-! ## Spec-side definitions and the spec's worked examples -/

/-- The minimal tier length of the spec's table in §4.1 (spec-side
definition, to compare with the code's encoder). -/
def specMinimalTierLen (n : Nat) : Nat :=
  if n ≤ 252 then 1 else if n ≤ 65535 then 3 else if n ≤ 4294967295 then 5 else 9

/-- Total length (marker included) of the tier selected by a first byte `b`,
as described in the spec's §4.1 decode table (spec-side definition). -/
def tierLen (b : Nat) : Nat :=
  if b ≤ 0xFC then 1 else if b = 0xFD then 3 else if b = 0xFE then 5 else 9

/-- A character of the lowercase hexadecimal alphabet. -/
def isLowerHexDigit (c : Char) : Prop :=
  ('0' ≤ c ∧ c ≤ '9') ∨ ('a' ≤ c ∧ c ≤ 'f')

instance (c : Char) : Decidable (isLowerHexDigit c) := by
  unfold isLowerHexDigit; infer_instance

/-- The worked transaction of the spec's §8 example: version 2, one input
spending outpoint (32 zero bytes, vout 0) with empty script and sequence
0xFFFFFFFF, lock time 500000. -/
def exampleTx : BitcoinTransaction :=
  BitcoinTransaction.new 2
    [TransactionInput.new (OutPoint.new (List.replicate 32 0) 0)
      (Script.new []) 0xFFFFFFFF]
    500000

/-- The byte concatenation the spec lists for `exampleTx` (50 bytes). -/
def exampleTxBytes : List Nat :=
  [0x02, 0x00, 0x00, 0x00] ++ [0x01] ++ List.replicate 32 0 ++
    [0x00, 0x00, 0x00, 0x00] ++ [0x00] ++ [0xFF, 0xFF, 0xFF, 0xFF] ++
    [0x20, 0xA1, 0x07, 0x00]

/-! ## Little-endian helper lemmas -/

theorem toLE_length (w n : Nat) : (toLE w n).length = w := by
  induction w generalizing n with
  | zero => rfl
  | succ w ih => simp [toLE, ih]

theorem toLE_bytesOk (w n : Nat) : bytesOk (toLE w n) := by
  induction w generalizing n with
  | zero => intro b hb; cases hb
  | succ w ih =>
    intro b hb
    simp only [toLE] at hb
    rcases List.mem_cons.mp hb with rfl | hb
    · exact Nat.mod_lt _ (by omega)
    · exact ih (n / 256) b hb

theorem fromLE_toLE (w n : Nat) (h : n < 2 ^ (8 * w)) : fromLE (toLE w n) = n := by
  induction w generalizing n with
  | zero =>
    simp only [Nat.mul_zero, pow_zero, Nat.lt_one_iff] at h
    simp [toLE, fromLE, h]
  | succ w ih =>
    have hp : 2 ^ (8 * (w + 1)) = 2 ^ (8 * w) * 256 := by
      rw [Nat.mul_succ, pow_add]; norm_num
    rw [hp] at h
    have h2 : n / 256 < 2 ^ (8 * w) := Nat.div_lt_iff_lt_mul (by omega) |>.mpr h
    simp only [toLE, fromLE, ih (n / 256) h2]
    omega

/-! ## CompactSize lemmas -/

theorem cs_decode_tier1 (b : Nat) (hb : b ≤ 0xFC) (rest : List Nat) :
    CompactSize.from_bytes (b :: rest) = .ok (CompactSize.new b) 1 := by
  simp [CompactSize.from_bytes, hb]

theorem cs_decode_tier3 (n : Nat) (h : n < 2 ^ 16) (rest : List Nat) :
    CompactSize.from_bytes (0xFD :: (toLE 2 n ++ rest)) = .ok (CompactSize.new n) 3 := by
  have hl : (toLE 2 n).length = 2 := toLE_length 2 n
  have hnl : ¬ ((toLE 2 n ++ rest).length + 1 < 3) := by
    simp only [List.length_append, hl]; omega
  have ht : (toLE 2 n ++ rest).take 2 = toLE 2 n := by
    have := List.take_left (toLE 2 n) rest
    rw [hl] at this
    exact this
  simp [CompactSize.from_bytes, hnl, ht, fromLE_toLE 2 n (by omega)]
  omega

theorem cs_decode_tier5 (n : Nat) (h : n < 2 ^ 32) (rest : List Nat) :
    CompactSize.from_bytes (0xFE :: (toLE 4 n ++ rest)) = .ok (CompactSize.new n) 5 := by
  have hl : (toLE 4 n).length = 4 := toLE_length 4 n
  have hnl : ¬ ((toLE 4 n ++ rest).length + 1 < 5) := by
    simp only [List.length_append, hl]; omega
  have ht : (toLE 4 n ++ rest).take 4 = toLE 4 n := by
    have := List.take_left (toLE 4 n) rest
    rw [hl] at this
    exact this
  simp [CompactSize.from_bytes, hnl, ht, fromLE_toLE 4 n (by omega)]
  omega

theorem cs_decode_tier9 (n : Nat) (h : n < 2 ^ 64) (rest : List Nat) :
    CompactSize.from_bytes (0xFF :: (toLE 8 n ++ rest)) = .ok (CompactSize.new n) 9 := by
  have hl : (toLE 8 n).length = 8 := toLE_length 8 n
  have hnl : ¬ ((toLE 8 n ++ rest).length + 1 < 9) := by
    simp only [List.length_append, hl]; omega
  have ht : (toLE 8 n ++ rest).take 8 = toLE 8 n := by
    have := List.take_left (toLE 8 n) rest
    rw [hl] at this
    exact this
  simp [CompactSize.from_bytes, hnl, ht, fromLE_toLE 8 n (by omega)]
  omega

theorem cs_to_bytes_length (c : CompactSize) :
    c.to_bytes.length = specMinimalTierLen c.value := by
  unfold CompactSize.to_bytes specMinimalTierLen
  split_ifs <;> simp_all [toLE_length]

theorem cs_to_bytes_pos (c : CompactSize) : 1 ≤ c.to_bytes.length := by
  rw [cs_to_bytes_length]; unfold specMinimalTierLen; split_ifs <;> omega

theorem cs_decode_encode_append (c : CompactSize) (h : c.value < 2 ^ 64)
    (rest : List Nat) :
    CompactSize.from_bytes (c.to_bytes ++ rest) = .ok c c.to_bytes.length := by
  obtain ⟨v⟩ := c
  show CompactSize.from_bytes (CompactSize.to_bytes ⟨v⟩ ++ rest) = _
  unfold CompactSize.to_bytes
  by_cases h1 : v ≤ 0xFC
  · rw [if_pos h1]
    simpa using cs_decode_tier1 v h1 rest
  · rw [if_neg h1]
    by_cases h2 : v ≤ 0xFFFF
    · rw [if_pos h2]
      have := cs_decode_tier3 v (by omega) rest
      simpa [toLE_length] using this
    · rw [if_neg h2]
      by_cases h3 : v ≤ 0xFFFFFFFF
      · rw [if_pos h3]
        have := cs_decode_tier5 v (by omega) rest
        simpa [toLE_length] using this
      · rw [if_neg h3]
        have := cs_decode_tier9 v h rest
        simpa [toLE_length] using this

theorem cs_decode_encode (c : CompactSize) (h : c.value < 2 ^ 64) :
    CompactSize.from_bytes c.to_bytes = .ok c c.to_bytes.length := by
  have := cs_decode_encode_append c h []
  simpa using this

theorem cs_encode_bytesOk (c : CompactSize) (h : c.value < 2 ^ 64) :
    bytesOk c.to_bytes := by
  unfold CompactSize.to_bytes
  split_ifs with h1 h2 h3 <;> intro b hb <;> simp only [List.mem_cons] at hb
  · rcases hb with rfl | hb
    · omega
    · cases hb
  · rcases hb with rfl | hb
    · omega
    · exact toLE_bytesOk 2 c.value b hb
  · rcases hb with rfl | hb
    · omega
    · exact toLE_bytesOk 4 c.value b hb
  · rcases hb with rfl | hb
    · omega
    · exact toLE_bytesOk 8 c.value b hb

theorem cs_decode_trunc (c : CompactSize) (k : Nat) (hk : k < c.to_bytes.length) :
    CompactSize.from_bytes (c.to_bytes.take k) = .err .InsufficientBytes := by
  unfold CompactSize.to_bytes at hk ⊢
  by_cases h1 : c.value ≤ 0xFC
  · rw [if_pos h1] at hk ⊢
    have hk0 : k = 0 := by simp at hk; omega
    subst hk0; rfl
  · rw [if_neg h1] at hk ⊢
    by_cases h2 : c.value ≤ 0xFFFF
    · rw [if_pos h2] at hk ⊢
      have hl := toLE_length 2 c.value
      have hk3 : k < 3 := by simp [hl] at hk; omega
      cases k with
      | zero => rfl
      | succ k =>
        rw [List.take_succ_cons]
        have hc : (List.take k (toLE 2 c.value)).length + 1 < 3 := by
          simp [List.length_take, hl]; omega
        simp [CompactSize.from_bytes, hc]
        omega
    · rw [if_neg h2] at hk ⊢
      by_cases h3 : c.value ≤ 0xFFFFFFFF
      · rw [if_pos h3] at hk ⊢
        have hl := toLE_length 4 c.value
        have hk5 : k < 5 := by simp [hl] at hk; omega
        cases k with
        | zero => rfl
        | succ k =>
          rw [List.take_succ_cons]
          have hc : (List.take k (toLE 4 c.value)).length + 1 < 5 := by
            simp [List.length_take, hl]; omega
          simp [CompactSize.from_bytes, hc]
          omega
      · rw [if_neg h3] at hk ⊢
        have hl := toLE_length 8 c.value
        have hk9 : k < 9 := by simp [hl] at hk; omega
        cases k with
        | zero => rfl
        | succ k =>
          rw [List.take_succ_cons]
          have hc : (List.take k (toLE 8 c.value)).length + 1 < 9 := by
            simp [List.length_take, hl]; omega
          simp [CompactSize.from_bytes, hc]
          omega

theorem cs_decode_ok_facts (B : List Nat) (c : CompactSize) (n : Nat)
    (h : CompactSize.from_bytes B = .ok c n) : 1 ≤ n ∧ n ≤ B.length := by
  cases B with
  | nil => simp [CompactSize.from_bytes] at h
  | cons b t =>
    simp only [CompactSize.from_bytes] at h
    by_cases h1 : b ≤ 0xFC
    · rw [if_pos h1] at h
      injection h with _ h2
      simp; omega
    · rw [if_neg h1] at h
      by_cases h2 : b = 0xFD
      · rw [if_pos h2] at h
        by_cases h3 : t.length + 1 < 3
        · rw [if_pos h3] at h; cases h
        · rw [if_neg h3] at h
          injection h with _ hn
          simp; omega
      · rw [if_neg h2] at h
        by_cases h4 : b = 0xFE
        · rw [if_pos h4] at h
          by_cases h5 : t.length + 1 < 5
          · rw [if_pos h5] at h; cases h
          · rw [if_neg h5] at h
            injection h with _ hn
            simp; omega
        · rw [if_neg h4] at h
          by_cases h6 : t.length + 1 < 9
          · rw [if_pos h6] at h; cases h
          · rw [if_neg h6] at h
            injection h with _ hn
            simp; omega

theorem cs_decode_ext (B S : List Nat) (c : CompactSize) (n : Nat)
    (h : CompactSize.from_bytes B = .ok c n) :
    CompactSize.from_bytes (B ++ S) = .ok c n := by
  cases B with
  | nil => simp [CompactSize.from_bytes] at h
  | cons b t =>
    rw [List.cons_append]
    simp only [CompactSize.from_bytes] at h ⊢
    by_cases h1 : b ≤ 0xFC
    · rw [if_pos h1] at h ⊢; exact h
    · rw [if_neg h1] at h ⊢
      by_cases h2 : b = 0xFD
      · rw [if_pos h2] at h ⊢
        by_cases h3 : t.length + 1 < 3
        · rw [if_pos h3] at h; cases h
        · rw [if_neg h3] at h
          rw [if_neg (by simp only [List.length_append]; omega),
            List.take_append_of_le_length (by omega)]
          exact h
      · rw [if_neg h2] at h ⊢
        by_cases h4 : b = 0xFE
        · rw [if_pos h4] at h ⊢
          by_cases h5 : t.length + 1 < 5
          · rw [if_pos h5] at h; cases h
          · rw [if_neg h5] at h
            rw [if_neg (by simp only [List.length_append]; omega),
              List.take_append_of_le_length (by omega)]
            exact h
        · rw [if_neg h4] at h ⊢
          by_cases h6 : t.length + 1 < 9
          · rw [if_pos h6] at h; cases h
          · rw [if_neg h6] at h
            rw [if_neg (by simp only [List.length_append]; omega),
              List.take_append_of_le_length (by omega)]
            exact h

/-! ## OutPoint lemmas -/

theorem op_encode_length (o : OutPoint) (h : o.txid.bytes.length = 32) :
    o.to_bytes.length = 36 := by
  simp [OutPoint.to_bytes, toLE_length, h]

theorem op_decode_encode_append (o : OutPoint) (hlen : o.txid.bytes.length = 32)
    (hv : o.vout < 2 ^ 32) (rest : List Nat) :
    OutPoint.from_bytes (o.to_bytes ++ rest) = .ok o 36 := by
  unfold OutPoint.to_bytes OutPoint.from_bytes
  rw [List.append_assoc]
  have h32 := List.take_left o.txid.bytes (toLE 4 o.vout ++ rest)
  rw [hlen] at h32
  have hd32 := List.drop_left o.txid.bytes (toLE 4 o.vout ++ rest)
  rw [hlen] at hd32
  have h4 := List.take_left (toLE 4 o.vout) rest
  rw [toLE_length] at h4
  rw [if_neg (by simp only [List.length_append, hlen, toLE_length]; omega),
    h32, hd32, h4, fromLE_toLE 4 o.vout (by omega)]
  rfl

theorem op_decode_ext (B S : List Nat) (o : OutPoint) (n : Nat)
    (h : OutPoint.from_bytes B = .ok o n) :
    OutPoint.from_bytes (B ++ S) = .ok o n := by
  unfold OutPoint.from_bytes at h ⊢
  by_cases h36 : B.length < 36
  · rw [if_pos h36] at h; cases h
  · rw [if_neg h36] at h
    rw [if_neg (by simp only [List.length_append]; omega),
      List.take_append_of_le_length (by omega),
      List.drop_append_of_le_length (by omega),
      List.take_append_of_le_length (by simp only [List.length_drop]; omega)]
    exact h

theorem op_decode_ok_facts (B : List Nat) (o : OutPoint) (n : Nat)
    (h : OutPoint.from_bytes B = .ok o n) : n = 36 ∧ 36 ≤ B.length := by
  unfold OutPoint.from_bytes at h
  by_cases h36 : B.length < 36
  · rw [if_pos h36] at h; cases h
  · rw [if_neg h36] at h
    injection h with _ hn
    omega

theorem op_decode_trunc (o : OutPoint) (hlen : o.txid.bytes.length = 32) (k : Nat)
    (hk : k < 36) :
    OutPoint.from_bytes (o.to_bytes.take k) = .err .InsufficientBytes := by
  have hc : (o.to_bytes.take k).length < 36 := by
    simp [List.length_take, op_encode_length o hlen]; omega
  simp [OutPoint.from_bytes, hc]
  omega

/-! ## Script lemmas -/

theorem specMinimalTierLen_bounds (n : Nat) :
    1 ≤ specMinimalTierLen n ∧ specMinimalTierLen n ≤ 9 := by
  unfold specMinimalTierLen; split_ifs <;> omega

theorem cs_new_value (n : Nat) : (CompactSize.new n).value = n := rfl

theorem script_encode_eq (s : Script) (hlen : s.bytes.length < 2 ^ 63) :
    s.to_bytes = (CompactSize.new s.bytes.length).to_bytes ++ s.bytes := by
  unfold Script.to_bytes
  rw [Nat.mod_eq_of_lt (by omega)]

theorem script_decode_encode_append (s : Script) (hlen : s.bytes.length < 2 ^ 63)
    (rest : List Nat) :
    Script.from_bytes (s.to_bytes ++ rest) = .ok s s.to_bytes.length := by
  rw [script_encode_eq s hlen]
  have hel : ((CompactSize.new s.bytes.length).to_bytes).length =
      specMinimalTierLen s.bytes.length := cs_to_bytes_length _
  have hb := specMinimalTierLen_bounds s.bytes.length
  have hcs := cs_decode_encode_append (CompactSize.new s.bytes.length)
    (by rw [cs_new_value]; omega) (s.bytes ++ rest)
  rw [List.append_assoc]
  unfold Script.from_bytes
  rw [hcs]
  dsimp only
  rw [cs_new_value]
  have hmod : ((CompactSize.new s.bytes.length).to_bytes.length + s.bytes.length) % 2 ^ 64
      = (CompactSize.new s.bytes.length).to_bytes.length + s.bytes.length :=
    Nat.mod_eq_of_lt (by omega)
  rw [hmod]
  rw [if_neg (by simp only [List.length_append]; omega),
    if_neg (by omega),
    List.drop_left, Nat.add_sub_cancel_left, List.take_left]
  simp [Script.new, List.length_append]

theorem script_decode_ext (B S : List Nat) (s : Script) (n : Nat)
    (h : Script.from_bytes B = .ok s n) :
    Script.from_bytes (B ++ S) = .ok s n := by
  unfold Script.from_bytes at h ⊢
  split at h
  · cases h
  · cases h
  · next lenPfx consumed hcs =>
    rw [cs_decode_ext B S lenPfx consumed hcs]
    dsimp only at h ⊢
    have hfacts := cs_decode_ok_facts B lenPfx consumed hcs
    by_cases h1 : B.length < (consumed + lenPfx.value) % 2 ^ 64
    · rw [if_pos h1] at h; cases h
    · rw [if_neg h1] at h
      by_cases h2 : (consumed + lenPfx.value) % 2 ^ 64 < consumed
      · rw [if_pos h2] at h; cases h
      · rw [if_neg h2] at h
        rw [if_neg (by simp only [List.length_append]; omega), if_neg h2,
          List.drop_append_of_le_length (by omega),
          List.take_append_of_le_length (by simp only [List.length_drop]; omega)]
        exact h

theorem script_decode_ok_facts (B : List Nat) (s : Script) (n : Nat)
    (h : Script.from_bytes B = .ok s n) : n ≤ B.length := by
  unfold Script.from_bytes at h
  split at h
  · cases h
  · cases h
  · next lenPfx consumed hcs =>
    dsimp only at h
    by_cases h1 : B.length < (consumed + lenPfx.value) % 2 ^ 64
    · rw [if_pos h1] at h; cases h
    · rw [if_neg h1] at h
      by_cases h2 : (consumed + lenPfx.value) % 2 ^ 64 < consumed
      · rw [if_pos h2] at h; cases h
      · rw [if_neg h2] at h
        injection h with _ hn
        omega

theorem script_decode_trunc (s : Script) (hlen : s.bytes.length < 2 ^ 63) (k : Nat)
    (hk : k < s.to_bytes.length) :
    Script.from_bytes (s.to_bytes.take k) = .err .InsufficientBytes := by
  rw [script_encode_eq s hlen] at hk ⊢
  have hel : ((CompactSize.new s.bytes.length).to_bytes).length =
      specMinimalTierLen s.bytes.length := cs_to_bytes_length _
  have hb := specMinimalTierLen_bounds s.bytes.length
  by_cases hke : k < ((CompactSize.new s.bytes.length).to_bytes).length
  · rw [List.take_append_of_le_length (by omega)]
    have hcs := cs_decode_trunc (CompactSize.new s.bytes.length) k hke
    unfold Script.from_bytes
    rw [hcs]
  · obtain ⟨k2, rfl⟩ : ∃ k2, k = ((CompactSize.new s.bytes.length).to_bytes).length + k2 :=
      ⟨k - ((CompactSize.new s.bytes.length).to_bytes).length, by omega⟩
    rw [List.take_append]
    have hk2 : k2 < s.bytes.length := by
      simp only [List.length_append] at hk; omega
    have hcs := cs_decode_encode_append (CompactSize.new s.bytes.length)
      (by rw [cs_new_value]; omega) (s.bytes.take k2)
    unfold Script.from_bytes
    rw [hcs]
    dsimp only
    rw [cs_new_value]
    have hmod : ((CompactSize.new s.bytes.length).to_bytes.length + s.bytes.length) % 2 ^ 64
        = (CompactSize.new s.bytes.length).to_bytes.length + s.bytes.length :=
      Nat.mod_eq_of_lt (by omega)
    rw [hmod, if_pos (by simp only [List.length_append, List.length_take]; omega)]

/-! ## TransactionInput lemmas -/

theorem txin_encode_length (i : TransactionInput)
    (h32 : i.previous_output.txid.bytes.length = 32) :
    i.to_bytes.length = 36 + i.script_sig.to_bytes.length + 4 := by
  simp [TransactionInput.to_bytes, List.length_append, toLE_length,
    op_encode_length i.previous_output h32]
  omega

theorem txin_decode_encode_append (i : TransactionInput) (hwf : i.wf)
    (rest : List Nat) :
    TransactionInput.from_bytes (i.to_bytes ++ rest) = .ok i i.to_bytes.length := by
  obtain ⟨hop, hs, hseq⟩ := hwf
  obtain ⟨⟨h32, _⟩, hv⟩ := hop
  obtain ⟨_, hslen⟩ := hs
  unfold TransactionInput.to_bytes
  simp only [List.append_assoc]
  unfold TransactionInput.from_bytes
  rw [op_decode_encode_append i.previous_output h32 hv
    (i.script_sig.to_bytes ++ (toLE 4 i.sequence ++ rest))]
  dsimp only
  have hd : (i.previous_output.to_bytes ++
      (i.script_sig.to_bytes ++ (toLE 4 i.sequence ++ rest))).drop 36 =
      i.script_sig.to_bytes ++ (toLE 4 i.sequence ++ rest) := by
    have := List.drop_left i.previous_output.to_bytes
      (i.script_sig.to_bytes ++ (toLE 4 i.sequence ++ rest))
    rw [op_encode_length i.previous_output h32] at this
    exact this
  rw [hd, script_decode_encode_append i.script_sig hslen (toLE 4 i.sequence ++ rest)]
  dsimp only
  rw [if_neg (by
    simp only [List.length_append, toLE_length, op_encode_length i.previous_output h32]
    omega)]
  have hd2 : (i.previous_output.to_bytes ++
      (i.script_sig.to_bytes ++ (toLE 4 i.sequence ++ rest))).drop
      (36 + i.script_sig.to_bytes.length) =
      toLE 4 i.sequence ++ rest := by
    rw [← op_encode_length i.previous_output h32, List.drop_append, List.drop_left]
  rw [hd2]
  have h4 := List.take_left (toLE 4 i.sequence) rest
  rw [toLE_length] at h4
  rw [h4, fromLE_toLE 4 i.sequence (by omega)]
  simp [TransactionInput.new, List.length_append, toLE_length,
    op_encode_length i.previous_output h32]
  omega

theorem txin_decode_ext (B S : List Nat) (i : TransactionInput) (n : Nat)
    (h : TransactionInput.from_bytes B = .ok i n) :
    TransactionInput.from_bytes (B ++ S) = .ok i n := by
  unfold TransactionInput.from_bytes at h ⊢
  split at h
  · cases h
  · cases h
  · next outpoint oconsumed hop =>
    have hopf := op_decode_ok_facts B outpoint oconsumed hop
    rw [op_decode_ext B S outpoint oconsumed hop]
    dsimp only at h ⊢
    split at h
    · cases h
    · cases h
    · next script_sig sconsumed hs =>
      have hsf := script_decode_ok_facts (B.drop oconsumed) script_sig sconsumed hs
      rw [List.drop_append_of_le_length (by omega),
        script_decode_ext (B.drop oconsumed) S script_sig sconsumed hs]
      dsimp only at h ⊢
      rw [List.length_drop] at hsf
      by_cases hc : B.length < oconsumed + sconsumed + 4
      · rw [if_pos hc] at h; cases h
      · rw [if_neg hc] at h
        rw [if_neg (by simp only [List.length_append]; omega),
          List.drop_append_of_le_length (by omega),
          List.take_append_of_le_length (by simp only [List.length_drop]; omega)]
        exact h

theorem txin_decode_ok_facts (B : List Nat) (i : TransactionInput) (n : Nat)
    (h : TransactionInput.from_bytes B = .ok i n) : n ≤ B.length := by
  unfold TransactionInput.from_bytes at h
  split at h
  · cases h
  · cases h
  · next outpoint oconsumed hop =>
    dsimp only at h
    split at h
    · cases h
    · cases h
    · next script_sig sconsumed hs =>
      by_cases hc : B.length < oconsumed + sconsumed + 4
      · rw [if_pos hc] at h; cases h
      · rw [if_neg hc] at h
        injection h with _ hn
        omega

theorem txin_decode_trunc (i : TransactionInput) (hwf : i.wf) (k : Nat)
    (hk : k < i.to_bytes.length) :
    TransactionInput.from_bytes (i.to_bytes.take k) = .err .InsufficientBytes := by
  obtain ⟨hop, hs, hseq⟩ := hwf
  obtain ⟨⟨h32, _⟩, hv⟩ := hop
  obtain ⟨_, hslen⟩ := hs
  rw [txin_encode_length i h32] at hk
  unfold TransactionInput.to_bytes
  simp only [List.append_assoc]
  by_cases hk36 : k < 36
  · have ht : (i.previous_output.to_bytes ++
        (i.script_sig.to_bytes ++ toLE 4 i.sequence)).take k =
        i.previous_output.to_bytes.take k := by
      rw [List.take_append_of_le_length (by rw [op_encode_length i.previous_output h32]; omega)]
    rw [ht]
    unfold TransactionInput.from_bytes
    rw [op_decode_trunc i.previous_output h32 k hk36]
  · by_cases hks : k < 36 + i.script_sig.to_bytes.length
    · obtain ⟨k2, rfl⟩ : ∃ k2, k = 36 + k2 := ⟨k - 36, by omega⟩
      have hk2 : k2 < i.script_sig.to_bytes.length := by omega
      have ht : (i.previous_output.to_bytes ++
          (i.script_sig.to_bytes ++ toLE 4 i.sequence)).take (36 + k2) =
          i.previous_output.to_bytes ++ i.script_sig.to_bytes.take k2 := by
        rw [← op_encode_length i.previous_output h32, List.take_append,
          List.take_append_of_le_length (by omega)]
      rw [ht]
      unfold TransactionInput.from_bytes
      rw [op_decode_encode_append i.previous_output h32 hv (i.script_sig.to_bytes.take k2)]
      dsimp only
      have hd : (i.previous_output.to_bytes ++ i.script_sig.to_bytes.take k2).drop 36 =
          i.script_sig.to_bytes.take k2 := by
        have := List.drop_left i.previous_output.to_bytes (i.script_sig.to_bytes.take k2)
        rw [op_encode_length i.previous_output h32] at this
        exact this
      rw [hd, script_decode_trunc i.script_sig hslen k2 hk2]
    · obtain ⟨k3, rfl⟩ : ∃ k3, k = 36 + i.script_sig.to_bytes.length + k3 :=
        ⟨k - 36 - i.script_sig.to_bytes.length, by omega⟩
      have hk3 : k3 < 4 := by omega
      have ht : (i.previous_output.to_bytes ++
          (i.script_sig.to_bytes ++ toLE 4 i.sequence)).take
          (36 + i.script_sig.to_bytes.length + k3) =
          i.previous_output.to_bytes ++
            (i.script_sig.to_bytes ++ (toLE 4 i.sequence).take k3) := by
        rw [← op_encode_length i.previous_output h32, Nat.add_assoc, List.take_append,
          List.take_append]
      rw [ht]
      unfold TransactionInput.from_bytes
      rw [op_decode_encode_append i.previous_output h32 hv
        (i.script_sig.to_bytes ++ (toLE 4 i.sequence).take k3)]
      dsimp only
      have hd : (i.previous_output.to_bytes ++
          (i.script_sig.to_bytes ++ (toLE 4 i.sequence).take k3)).drop 36 =
          i.script_sig.to_bytes ++ (toLE 4 i.sequence).take k3 := by
        have := List.drop_left i.previous_output.to_bytes
          (i.script_sig.to_bytes ++ (toLE 4 i.sequence).take k3)
        rw [op_encode_length i.previous_output h32] at this
        exact this
      rw [hd, script_decode_encode_append i.script_sig hslen ((toLE 4 i.sequence).take k3)]
      dsimp only
      rw [if_pos (by
        simp only [List.length_append, List.length_take, toLE_length,
          op_encode_length i.previous_output h32]
        omega)]

/-! ## Transaction input-loop lemmas -/

theorem loop_decode_encode (l : List TransactionInput) (hwf : ∀ i ∈ l, i.wf) :
    ∀ (bytes : List Nat) (offset : Nat) (rest : List Nat),
    bytes.drop offset = inputsBytes l ++ rest →
    decodeInputsLoop bytes offset l.length = .ok l (offset + (inputsBytes l).length) := by
  induction l with
  | nil =>
    intro bytes offset rest h
    simp [decodeInputsLoop, inputsBytes]
  | cons i rest' ih =>
    intro bytes offset rest h
    have hsplit : bytes.drop offset = i.to_bytes ++ (inputsBytes rest' ++ rest) := by
      rw [h]; simp [inputsBytes, List.append_assoc]
    simp only [List.length_cons, decodeInputsLoop]
    rw [hsplit, txin_decode_encode_append i (hwf i (List.mem_cons_self i rest'))
      (inputsBytes rest' ++ rest)]
    dsimp only
    rw [ih (fun j hj => hwf j (List.mem_cons_of_mem i hj)) bytes
      (offset + i.to_bytes.length) rest
      (by rw [← List.drop_drop, hsplit, List.drop_left])]
    dsimp only
    simp only [inputsBytes, List.length_append]
    rw [Nat.add_assoc]

theorem loop_decode_trunc (l : List TransactionInput) (hwf : ∀ i ∈ l, i.wf) :
    ∀ (bytes : List Nat) (offset k : Nat),
    bytes.drop offset = (inputsBytes l).take k → k < (inputsBytes l).length →
    decodeInputsLoop bytes offset l.length = .err .InsufficientBytes := by
  induction l with
  | nil =>
    intro bytes offset k h hk
    simp [inputsBytes] at hk
  | cons i rest' ih =>
    intro bytes offset k h hk
    simp only [List.length_cons, decodeInputsLoop]
    by_cases hki : k < i.to_bytes.length
    · have ht : (inputsBytes (i :: rest')).take k = i.to_bytes.take k := by
        simp only [inputsBytes]
        rw [List.take_append_of_le_length (by omega)]
      rw [h, ht, txin_decode_trunc i (hwf i (List.mem_cons_self i rest')) k hki]
    · obtain ⟨k2, rfl⟩ : ∃ k2, k = i.to_bytes.length + k2 :=
        ⟨k - i.to_bytes.length, by omega⟩
      have ht : (inputsBytes (i :: rest')).take (i.to_bytes.length + k2) =
          i.to_bytes ++ (inputsBytes rest').take k2 := by
        simp only [inputsBytes]
        rw [List.take_append]
      rw [h, ht, txin_decode_encode_append i (hwf i (List.mem_cons_self i rest'))
        ((inputsBytes rest').take k2)]
      dsimp only
      rw [ih (fun j hj => hwf j (List.mem_cons_of_mem i hj)) bytes
        (offset + i.to_bytes.length) k2
        (by rw [← List.drop_drop, h, ht, List.drop_left])
        (by simp only [inputsBytes, List.length_append] at hk; omega)]

theorem loop_decode_ok_facts (bytes : List Nat) :
    ∀ (count offset : Nat) (l : List TransactionInput) (off2 : Nat),
    decodeInputsLoop bytes offset count = .ok l off2 → offset ≤ bytes.length →
    offset ≤ off2 ∧ off2 ≤ bytes.length := by
  intro count
  induction count with
  | zero =>
    intro offset l off2 h ho
    simp only [decodeInputsLoop] at h
    injection h with _ h2
    omega
  | succ count ih =>
    intro offset l off2 h ho
    simp only [decodeInputsLoop] at h
    split at h
    · cases h
    · cases h
    · next input consumed hin =>
      have hcf := txin_decode_ok_facts _ input consumed hin
      rw [List.length_drop] at hcf
      split at h
      · cases h
      · cases h
      · next inputs final hloop =>
        injection h with _ hoff
        have := ih (offset + consumed) inputs final hloop (by omega)
        omega

theorem loop_decode_ext (bytes S : List Nat) :
    ∀ (count offset : Nat) (l : List TransactionInput) (off2 : Nat),
    decodeInputsLoop bytes offset count = .ok l off2 → offset ≤ bytes.length →
    decodeInputsLoop (bytes ++ S) offset count = .ok l off2 := by
  intro count
  induction count with
  | zero =>
    intro offset l off2 h _
    simpa [decodeInputsLoop] using h
  | succ count ih =>
    intro offset l off2 h ho
    simp only [decodeInputsLoop] at h ⊢
    split at h
    · cases h
    · cases h
    · next input consumed hin =>
      have hcf := txin_decode_ok_facts _ input consumed hin
      rw [List.length_drop] at hcf
      rw [List.drop_append_of_le_length ho, txin_decode_ext _ S input consumed hin]
      dsimp only
      split at h
      · cases h
      · cases h
      · next inputs final hloop =>
        rw [ih (offset + consumed) inputs final hloop (by omega)]
        dsimp only
        exact h

/-! ## BitcoinTransaction lemmas -/

theorem tx_encode_eq (tx : BitcoinTransaction) (hcount : tx.inputs.length < 2 ^ 64) :
    tx.to_bytes = toLE 4 tx.version ++
      ((CompactSize.new tx.inputs.length).to_bytes ++
        (inputsBytes tx.inputs ++ toLE 4 tx.lock_time)) := by
  unfold BitcoinTransaction.to_bytes
  rw [Nat.mod_eq_of_lt hcount]
  simp [List.append_assoc]

theorem tx_encode_length (tx : BitcoinTransaction) (hcount : tx.inputs.length < 2 ^ 64) :
    tx.to_bytes.length = 4 + ((CompactSize.new tx.inputs.length).to_bytes.length +
      ((inputsBytes tx.inputs).length + 4)) := by
  rw [tx_encode_eq tx hcount]
  simp [List.length_append, toLE_length]

theorem tx_decode_encode_append (tx : BitcoinTransaction) (hwf : tx.wf)
    (rest : List Nat) :
    BitcoinTransaction.from_bytes (tx.to_bytes ++ rest) = .ok tx tx.to_bytes.length := by
  obtain ⟨hver, hwfi, hcount, hlock⟩ := hwf
  have hLen := tx_encode_length tx hcount
  rw [tx_encode_eq tx hcount]
  simp only [List.append_assoc]
  unfold BitcoinTransaction.from_bytes
  rw [if_neg (by simp only [List.length_append, toLE_length]; omega)]
  have hd4 : (toLE 4 tx.version ++
      ((CompactSize.new tx.inputs.length).to_bytes ++
        (inputsBytes tx.inputs ++ (toLE 4 tx.lock_time ++ rest)))).drop 4 =
      (CompactSize.new tx.inputs.length).to_bytes ++
        (inputsBytes tx.inputs ++ (toLE 4 tx.lock_time ++ rest)) := by
    have := List.drop_left (toLE 4 tx.version)
      ((CompactSize.new tx.inputs.length).to_bytes ++
        (inputsBytes tx.inputs ++ (toLE 4 tx.lock_time ++ rest)))
    rw [toLE_length] at this
    exact this
  rw [hd4, cs_decode_encode_append (CompactSize.new tx.inputs.length)
    (by rw [cs_new_value]; omega)
    (inputsBytes tx.inputs ++ (toLE 4 tx.lock_time ++ rest))]
  dsimp only
  rw [cs_new_value]
  have hdloop : (toLE 4 tx.version ++
      ((CompactSize.new tx.inputs.length).to_bytes ++
        (inputsBytes tx.inputs ++ (toLE 4 tx.lock_time ++ rest)))).drop
      (4 + (CompactSize.new tx.inputs.length).to_bytes.length) =
      inputsBytes tx.inputs ++ (toLE 4 tx.lock_time ++ rest) := by
    rw [← List.drop_drop, hd4, List.drop_left]
  rw [loop_decode_encode tx.inputs hwfi _ _ _ hdloop]
  dsimp only
  rw [if_neg (by simp only [List.length_append, toLE_length]; omega)]
  have hv4 : (toLE 4 tx.version ++
      ((CompactSize.new tx.inputs.length).to_bytes ++
        (inputsBytes tx.inputs ++ (toLE 4 tx.lock_time ++ rest)))).take 4 =
      toLE 4 tx.version := by
    have := List.take_left (toLE 4 tx.version)
      ((CompactSize.new tx.inputs.length).to_bytes ++
        (inputsBytes tx.inputs ++ (toLE 4 tx.lock_time ++ rest)))
    rw [toLE_length] at this
    exact this
  have hdlock : (toLE 4 tx.version ++
      ((CompactSize.new tx.inputs.length).to_bytes ++
        (inputsBytes tx.inputs ++ (toLE 4 tx.lock_time ++ rest)))).drop
      (4 + (CompactSize.new tx.inputs.length).to_bytes.length +
        (inputsBytes tx.inputs).length) =
      toLE 4 tx.lock_time ++ rest := by
    rw [← List.drop_drop, hdloop, List.drop_left]
  rw [hv4, hdlock]
  have h4 := List.take_left (toLE 4 tx.lock_time) rest
  rw [toLE_length] at h4
  rw [h4, fromLE_toLE 4 tx.version (by omega), fromLE_toLE 4 tx.lock_time (by omega)]
  show DecodeResult.ok tx _ = DecodeResult.ok tx _
  congr 1
  simp only [List.length_append, toLE_length]
  omega

theorem tx_decode_ext (B S : List Nat) (tx : BitcoinTransaction) (n : Nat)
    (h : BitcoinTransaction.from_bytes B = .ok tx n) :
    BitcoinTransaction.from_bytes (B ++ S) = .ok tx n := by
  unfold BitcoinTransaction.from_bytes at h ⊢
  by_cases h4 : B.length < 4
  · rw [if_pos h4] at h; cases h
  · rw [if_neg h4] at h
    rw [if_neg (by simp only [List.length_append]; omega)]
    split at h
    · cases h
    · cases h
    · next cs cconsumed hcs =>
      have hcsf := cs_decode_ok_facts _ cs cconsumed hcs
      rw [List.length_drop] at hcsf
      rw [List.drop_append_of_le_length (by omega), cs_decode_ext _ S cs cconsumed hcs]
      dsimp only
      split at h
      · cases h
      · cases h
      · next inputs offset hloop =>
        have hlf := loop_decode_ok_facts B cs.value (4 + cconsumed) inputs offset
          hloop (by omega)
        rw [loop_decode_ext B S cs.value (4 + cconsumed) inputs offset hloop (by omega)]
        dsimp only
        by_cases hc : B.length < offset + 4
        · rw [if_pos hc] at h; cases h
        · rw [if_neg hc] at h
          rw [if_neg (by simp only [List.length_append]; omega),
            List.take_append_of_le_length (by omega),
            List.drop_append_of_le_length (by omega),
            List.take_append_of_le_length (by simp only [List.length_drop]; omega)]
          exact h

theorem tx_decode_trunc (tx : BitcoinTransaction) (hwf : tx.wf) (k : Nat)
    (hk : k < tx.to_bytes.length) :
    BitcoinTransaction.from_bytes (tx.to_bytes.take k) = .err .InsufficientBytes := by
  obtain ⟨hver, hwfi, hcount, hlock⟩ := hwf
  have hLen := tx_encode_length tx hcount
  rw [hLen] at hk
  rw [tx_encode_eq tx hcount]
  by_cases hk4 : k < 4
  · have hl : ((toLE 4 tx.version ++
        ((CompactSize.new tx.inputs.length).to_bytes ++
          (inputsBytes tx.inputs ++ toLE 4 tx.lock_time))).take k).length < 4 := by
      simp only [List.length_take, List.length_append, toLE_length]
      omega
    unfold BitcoinTransaction.from_bytes
    rw [if_pos hl]
  · by_cases hkc : k < 4 + (CompactSize.new tx.inputs.length).to_bytes.length
    · obtain ⟨k2, rfl⟩ : ∃ k2, k = 4 + k2 := ⟨k - 4, by omega⟩
      have hk2 : k2 < (CompactSize.new tx.inputs.length).to_bytes.length := by omega
      have ht : (toLE 4 tx.version ++
          ((CompactSize.new tx.inputs.length).to_bytes ++
            (inputsBytes tx.inputs ++ toLE 4 tx.lock_time))).take (4 + k2) =
          toLE 4 tx.version ++ (CompactSize.new tx.inputs.length).to_bytes.take k2 := by
        rw [show (4 : Nat) + k2 = (toLE 4 tx.version).length + k2 by rw [toLE_length],
          List.take_append, List.take_append_of_le_length (by omega)]
      rw [ht]
      unfold BitcoinTransaction.from_bytes
      rw [if_neg (by
        simp only [List.length_append, List.length_take, toLE_length]
        omega)]
      have hd : (toLE 4 tx.version ++
          (CompactSize.new tx.inputs.length).to_bytes.take k2).drop 4 =
          (CompactSize.new tx.inputs.length).to_bytes.take k2 := by
        have := List.drop_left (toLE 4 tx.version)
          ((CompactSize.new tx.inputs.length).to_bytes.take k2)
        rw [toLE_length] at this
        exact this
      rw [hd, cs_decode_trunc (CompactSize.new tx.inputs.length) k2 hk2]
    · by_cases hkl : k < 4 + (CompactSize.new tx.inputs.length).to_bytes.length +
          (inputsBytes tx.inputs).length
      · obtain ⟨k2, rfl⟩ : ∃ k2,
            k = 4 + (CompactSize.new tx.inputs.length).to_bytes.length + k2 :=
          ⟨k - 4 - (CompactSize.new tx.inputs.length).to_bytes.length, by omega⟩
        have hk2 : k2 < (inputsBytes tx.inputs).length := by omega
        have ht : (toLE 4 tx.version ++
            ((CompactSize.new tx.inputs.length).to_bytes ++
              (inputsBytes tx.inputs ++ toLE 4 tx.lock_time))).take
            (4 + (CompactSize.new tx.inputs.length).to_bytes.length + k2) =
            toLE 4 tx.version ++ ((CompactSize.new tx.inputs.length).to_bytes ++
              (inputsBytes tx.inputs).take k2) := by
          rw [show (4 : Nat) + (CompactSize.new tx.inputs.length).to_bytes.length + k2 =
            (toLE 4 tx.version).length +
              ((CompactSize.new tx.inputs.length).to_bytes.length + k2) by
              rw [toLE_length]; omega,
            List.take_append, List.take_append, List.take_append_of_le_length (by omega)]
        rw [ht]
        unfold BitcoinTransaction.from_bytes
        rw [if_neg (by
          simp only [List.length_append, List.length_take, toLE_length]
          omega)]
        have hd : (toLE 4 tx.version ++
            ((CompactSize.new tx.inputs.length).to_bytes ++
              (inputsBytes tx.inputs).take k2)).drop 4 =
            (CompactSize.new tx.inputs.length).to_bytes ++
              (inputsBytes tx.inputs).take k2 := by
          have := List.drop_left (toLE 4 tx.version)
            ((CompactSize.new tx.inputs.length).to_bytes ++
              (inputsBytes tx.inputs).take k2)
          rw [toLE_length] at this
          exact this
        rw [hd, cs_decode_encode_append (CompactSize.new tx.inputs.length)
          (by rw [cs_new_value]; omega) ((inputsBytes tx.inputs).take k2)]
        dsimp only
        rw [cs_new_value]
        have hdloop : (toLE 4 tx.version ++
            ((CompactSize.new tx.inputs.length).to_bytes ++
              (inputsBytes tx.inputs).take k2)).drop
            (4 + (CompactSize.new tx.inputs.length).to_bytes.length) =
            (inputsBytes tx.inputs).take k2 := by
          rw [← List.drop_drop, hd, List.drop_left]
        rw [loop_decode_trunc tx.inputs hwfi _ _ k2 hdloop hk2]
      · obtain ⟨k3, rfl⟩ : ∃ k3,
            k = 4 + (CompactSize.new tx.inputs.length).to_bytes.length +
              (inputsBytes tx.inputs).length + k3 :=
          ⟨k - 4 - (CompactSize.new tx.inputs.length).to_bytes.length -
            (inputsBytes tx.inputs).length, by omega⟩
        have hk3 : k3 < 4 := by omega
        have ht : (toLE 4 tx.version ++
            ((CompactSize.new tx.inputs.length).to_bytes ++
              (inputsBytes tx.inputs ++ toLE 4 tx.lock_time))).take
            (4 + (CompactSize.new tx.inputs.length).to_bytes.length +
              (inputsBytes tx.inputs).length + k3) =
            toLE 4 tx.version ++ ((CompactSize.new tx.inputs.length).to_bytes ++
              (inputsBytes tx.inputs ++ (toLE 4 tx.lock_time).take k3)) := by
          rw [show (4 : Nat) + (CompactSize.new tx.inputs.length).to_bytes.length +
            (inputsBytes tx.inputs).length + k3 =
            (toLE 4 tx.version).length +
              ((CompactSize.new tx.inputs.length).to_bytes.length +
                ((inputsBytes tx.inputs).length + k3)) by rw [toLE_length]; omega,
            List.take_append, List.take_append, List.take_append]
        rw [ht]
        unfold BitcoinTransaction.from_bytes
        rw [if_neg (by
          simp only [List.length_append, List.length_take, toLE_length]
          omega)]
        have hd : (toLE 4 tx.version ++
            ((CompactSize.new tx.inputs.length).to_bytes ++
              (inputsBytes tx.inputs ++ (toLE 4 tx.lock_time).take k3))).drop 4 =
            (CompactSize.new tx.inputs.length).to_bytes ++
              (inputsBytes tx.inputs ++ (toLE 4 tx.lock_time).take k3) := by
          have := List.drop_left (toLE 4 tx.version)
            ((CompactSize.new tx.inputs.length).to_bytes ++
              (inputsBytes tx.inputs ++ (toLE 4 tx.lock_time).take k3))
          rw [toLE_length] at this
          exact this
        rw [hd, cs_decode_encode_append (CompactSize.new tx.inputs.length)
          (by rw [cs_new_value]; omega)
          (inputsBytes tx.inputs ++ (toLE 4 tx.lock_time).take k3)]
        dsimp only
        rw [cs_new_value]
        have hdloop : (toLE 4 tx.version ++
            ((CompactSize.new tx.inputs.length).to_bytes ++
              (inputsBytes tx.inputs ++ (toLE 4 tx.lock_time).take k3))).drop
            (4 + (CompactSize.new tx.inputs.length).to_bytes.length) =
            inputsBytes tx.inputs ++ (toLE 4 tx.lock_time).take k3 := by
          rw [← List.drop_drop, hd, List.drop_left]
        rw [loop_decode_encode tx.inputs hwfi _ _ _ hdloop]
        dsimp only
        rw [if_pos (by
          simp only [List.length_append, List.length_take, toLE_length]
          omega)]

/-! ## Hex / Txid lemmas -/

theorem hexChar_isLower (n : Nat) (h : n < 16) : isLowerHexDigit (hexChar n) := by
  interval_cases n <;> decide

theorem hexDigitVal_hexChar (n : Nat) (h : n < 16) : hexDigitVal (hexChar n) = some n := by
  interval_cases n <;> decide

theorem hexEncode_length : ∀ (l : List Nat), (hexEncode l).length = 2 * l.length
  | [] => rfl
  | b :: rest => by
    simp only [hexEncode, List.length_cons, hexEncode_length rest]
    omega

theorem hexEncode_lower : ∀ (l : List Nat), bytesOk l →
    ∀ ch ∈ hexEncode l, isLowerHexDigit ch
  | [], _, ch, hch => absurd hch (List.not_mem_nil ch)
  | b :: rest, hok, ch, hch => by
    have hb : b < 256 := hok b (List.mem_cons_self b rest)
    simp only [hexEncode, List.mem_cons] at hch
    rcases hch with rfl | rfl | hch
    · exact hexChar_isLower _ (by omega)
    · exact hexChar_isLower _ (by omega)
    · exact hexEncode_lower rest (fun x hx => hok x (List.mem_cons_of_mem b hx)) ch hch

theorem hexDecode_hexEncode : ∀ (l : List Nat), bytesOk l →
    hexDecode (hexEncode l) = some l
  | [], _ => rfl
  | b :: rest, hok => by
    have hb : b < 256 := hok b (List.mem_cons_self b rest)
    have hrest : bytesOk rest := fun x hx => hok x (List.mem_cons_of_mem b hx)
    show hexDecode (hexChar (b / 16) :: hexChar (b % 16) :: hexEncode rest) = some (b :: rest)
    simp only [hexDecode, hexDigitVal_hexChar (b / 16) (by omega),
      hexDigitVal_hexChar (b % 16) (by omega), hexDecode_hexEncode rest hrest]
    have hbb : 16 * (b / 16) + b % 16 = b := by omega
    rw [hbb]

theorem hexDecode_odd : ∀ (s : List Char), s.length % 2 = 1 → hexDecode s = none
  | [], h => by simp at h
  | [_], _ => rfl
  | c1 :: c2 :: rest, h => by
    have hr : rest.length % 2 = 1 := by
      simp only [List.length_cons] at h; omega
    simp only [hexDecode, hexDecode_odd rest hr]
    cases hexDigitVal c1 <;> cases hexDigitVal c2 <;> rfl

theorem hexDecode_badchar : ∀ (s : List Char) (c : Char), c ∈ s →
    hexDigitVal c = none → hexDecode s = none
  | [], c, hc, _ => absurd hc (List.not_mem_nil c)
  | [_], _, _, _ => rfl
  | c1 :: c2 :: rest, c, hc, hbad => by
    simp only [List.mem_cons] at hc
    rcases hc with rfl | rfl | hc
    · simp only [hexDecode, hbad]
    · simp only [hexDecode, hbad]
      try cases hexDigitVal c1 <;> cases hexDecode rest <;> rfl
    · simp only [hexDecode, hexDecode_badchar rest c hc hbad]
      try cases hexDigitVal c1 <;> cases hexDigitVal c2 <;> rfl

theorem hexDecode_length : ∀ (s : List Char) (bs : List Nat),
    hexDecode s = some bs → s.length = 2 * bs.length
  | [], bs, h => by
    simp only [hexDecode] at h
    injection h with h
    subst h
    rfl
  | [_], bs, h => by
    simp only [hexDecode] at h
    cases h
  | c1 :: c2 :: rest, bs, h => by
    simp only [hexDecode] at h
    split at h
    · next hi lo bs' hh1 hh2 hh3 =>
      injection h with h
      subst h
      simp only [List.length_cons, hexDecode_length rest bs' hh3]
      omega
    · cases h

theorem txid_deserialize_wrong_length (s : List Char) (h : s.length ≠ 64) :
    Txid.deserialize s = .error .InvalidFormat := by
  unfold Txid.deserialize
  cases hd : hexDecode s with
  | none => rfl
  | some bs =>
    have := hexDecode_length s bs hd
    dsimp only
    rw [if_pos (by omega)]

theorem txid_deserialize_serialize (t : Txid) (hwf : t.wf) :
    Txid.deserialize (Txid.serialize t) = .ok t := by
  obtain ⟨hlen, hok⟩ := hwf
  unfold Txid.serialize Txid.deserialize
  rw [hexDecode_hexEncode t.bytes hok]
  dsimp only
  rw [if_neg (by omega)]

theorem txid_serialize_length (t : Txid) (hwf : t.wf) :
    (Txid.serialize t).length = 64 := by
  unfold Txid.serialize
  rw [hexEncode_length, hwf.1]

theorem txid_deserialize_odd (s : List Char) (h : s.length % 2 = 1) :
    Txid.deserialize s = .error .InvalidFormat := by
  unfold Txid.deserialize
  rw [hexDecode_odd s h]

theorem txid_deserialize_badchar (s : List Char) (c : Char) (hc : c ∈ s)
    (hbad : hexDigitVal c = none) :
    Txid.deserialize s = .error .InvalidFormat := by
  unfold Txid.deserialize
  rw [hexDecode_badchar s c hc hbad]

theorem cs_to_bytes_new (n : Nat) :
    (CompactSize.new n).to_bytes =
      if n ≤ 0xFC then [n]
      else if n ≤ 0xFFFF then 0xFD :: toLE 2 n
      else if n ≤ 0xFFFFFFFF then 0xFE :: toLE 4 n
      else 0xFF :: toLE 8 n := rfl

/-! ## Claim theorems -/

/-- C1: for every well-formed value of each component, `from_bytes`
applied to `to_bytes` succeeds and returns exactly the value together with
the full length of the encoding; for `Txid` the round-trip goes through
its hex textual form. -/
theorem C1_round_trip :
    (∀ c : CompactSize, c.wf →
      CompactSize.from_bytes c.to_bytes = .ok c c.to_bytes.length) ∧
    (∀ o : OutPoint, o.wf →
      OutPoint.from_bytes o.to_bytes = .ok o o.to_bytes.length) ∧
    (∀ s : Script, s.wf →
      Script.from_bytes s.to_bytes = .ok s s.to_bytes.length) ∧
    (∀ i : TransactionInput, i.wf →
      TransactionInput.from_bytes i.to_bytes = .ok i i.to_bytes.length) ∧
    (∀ tx : BitcoinTransaction, tx.wf →
      BitcoinTransaction.from_bytes tx.to_bytes = .ok tx tx.to_bytes.length) ∧
    (∀ t : Txid, t.wf → Txid.deserialize (Txid.serialize t) = .ok t) := by
  refine ⟨?_, ?_, ?_, ?_, ?_, ?_⟩
  · intro c hc
    exact cs_decode_encode c hc
  · intro o ho
    have h := op_decode_encode_append o ho.1.1 ho.2 []
    rw [List.append_nil] at h
    rw [op_encode_length o ho.1.1]
    exact h
  · intro s hs
    have h := script_decode_encode_append s hs.2 []
    rwa [List.append_nil] at h
  · intro i hi
    have h := txin_decode_encode_append i hi []
    rwa [List.append_nil] at h
  · intro tx htx
    have h := tx_decode_encode_append tx htx []
    rwa [List.append_nil] at h
  · exact txid_deserialize_serialize

/-- Witness for C1 at concrete inputs. -/
theorem C1_round_trip_witness :
    CompactSize.from_bytes (CompactSize.new 300).to_bytes =
      .ok (CompactSize.new 300) (CompactSize.new 300).to_bytes.length :=
  C1_round_trip.1 (CompactSize.new 300) (by decide)

/-- C2: the encoder always picks the smallest of the four prescribed tiers
that can represent the value; in particular `encode 252 = [0xFC]` and
`encode 253 = [0xFD, 0xFD, 0x00]`. -/
theorem C2_minimal_tier :
    (∀ n : Nat, n < 2 ^ 64 →
      (CompactSize.new n).to_bytes.length = specMinimalTierLen n ∧
      (n ≤ 252 → (CompactSize.new n).to_bytes = [n]) ∧
      (253 ≤ n ∧ n ≤ 65535 → (CompactSize.new n).to_bytes = 0xFD :: toLE 2 n) ∧
      (65536 ≤ n ∧ n ≤ 4294967295 → (CompactSize.new n).to_bytes = 0xFE :: toLE 4 n) ∧
      (4294967296 ≤ n → (CompactSize.new n).to_bytes = 0xFF :: toLE 8 n)) ∧
    (CompactSize.new 252).to_bytes = [0xFC] ∧
    (CompactSize.new 253).to_bytes = [0xFD, 0xFD, 0x00] := by
  refine ⟨?_, by decide, by decide⟩
  intro n hn
  refine ⟨cs_to_bytes_length _, ?_, ?_, ?_, ?_⟩
  · intro h
    rw [cs_to_bytes_new, if_pos (by omega)]
  · intro h
    rw [cs_to_bytes_new, if_neg (by omega), if_pos (by omega)]
  · intro h
    rw [cs_to_bytes_new, if_neg (by omega), if_neg (by omega), if_pos (by omega)]
  · intro h
    rw [cs_to_bytes_new, if_neg (by omega), if_neg (by omega), if_neg (by omega)]

/-- Witness for C2 at a concrete input. -/
theorem C2_minimal_tier_witness :
    (CompactSize.new 65536).to_bytes = 0xFE :: toLE 4 65536 :=
  ((C2_minimal_tier.1 65536 (by decide)).2.2.2.1) ⟨by decide, by decide⟩

/-- C3: for each component, decoding any strict prefix of a well-formed
value's encoding fails with InsufficientBytes (a strict prefix of E is
E.take k for some k < E.length, the empty buffer included). -/
theorem C3_truncation :
    (∀ c : CompactSize, c.wf → ∀ k < c.to_bytes.length,
      CompactSize.from_bytes (c.to_bytes.take k) = .err .InsufficientBytes) ∧
    (∀ o : OutPoint, o.wf → ∀ k < o.to_bytes.length,
      OutPoint.from_bytes (o.to_bytes.take k) = .err .InsufficientBytes) ∧
    (∀ s : Script, s.wf → ∀ k < s.to_bytes.length,
      Script.from_bytes (s.to_bytes.take k) = .err .InsufficientBytes) ∧
    (∀ i : TransactionInput, i.wf → ∀ k < i.to_bytes.length,
      TransactionInput.from_bytes (i.to_bytes.take k) = .err .InsufficientBytes) ∧
    (∀ tx : BitcoinTransaction, tx.wf → ∀ k < tx.to_bytes.length,
      BitcoinTransaction.from_bytes (tx.to_bytes.take k) = .err .InsufficientBytes) := by
  refine ⟨?_, ?_, ?_, ?_, ?_⟩
  · intro c _ k hk
    exact cs_decode_trunc c k hk
  · intro o ho k hk
    rw [op_encode_length o ho.1.1] at hk
    exact op_decode_trunc o ho.1.1 k hk
  · intro s hs k hk
    exact script_decode_trunc s hs.2 k hk
  · intro i hi k hk
    exact txin_decode_trunc i hi k hk
  · intro tx htx k hk
    exact tx_decode_trunc tx htx k hk

/-- Witness for C3 at a concrete input. -/
theorem C3_truncation_witness :
    CompactSize.from_bytes ((CompactSize.new 300).to_bytes.take 2) =
      .err .InsufficientBytes :=
  C3_truncation.1 (CompactSize.new 300) (by decide) 2 (by decide)

/-- C4: CompactSize decoding fails exactly when the buffer is empty or
shorter than the total length of the tier selected by its first byte, the
only error is InsufficientBytes, and on success the consumed count is that
tier's total length. -/
theorem C4_decode_errors :
    CompactSize.from_bytes [] = .err .InsufficientBytes ∧
    (∀ (b : Nat) (t : List Nat), b < 256 →
      (CompactSize.from_bytes (b :: t) = .err .InsufficientBytes ↔
        (b :: t).length < tierLen b) ∧
      (∀ e, CompactSize.from_bytes (b :: t) = .err e → e = .InsufficientBytes) ∧
      (∀ c n, CompactSize.from_bytes (b :: t) = .ok c n → n = tierLen b)) := by
  refine ⟨rfl, ?_⟩
  intro b t hb
  simp only [CompactSize.from_bytes, tierLen, List.length_cons]
  by_cases h1 : b ≤ 0xFC
  · rw [if_pos h1, if_pos h1]
    refine ⟨⟨?_, ?_⟩, ?_, ?_⟩
    · intro h; cases h
    · intro h; omega
    · intro e he; cases he
    · intro c n h
      injection h with _ h2
      omega
  · rw [if_neg h1, if_neg h1]
    by_cases h2 : b = 0xFD
    · rw [if_pos h2, if_pos h2]
      by_cases h3 : t.length + 1 < 3
      · rw [if_pos h3]
        refine ⟨by simp [h3], ?_, ?_⟩
        · intro e he
          injection he with he
          exact he.symm
        · intro c n h; cases h
      · rw [if_neg h3]
        refine ⟨by simp [h3], ?_, ?_⟩
        · intro e he; cases he
        · intro c n h
          injection h with _ h2
          omega
    · rw [if_neg h2, if_neg h2]
      by_cases h4 : b = 0xFE
      · rw [if_pos h4, if_pos h4]
        by_cases h5 : t.length + 1 < 5
        · rw [if_pos h5]
          refine ⟨by simp [h5], ?_, ?_⟩
          · intro e he
            injection he with he
            exact he.symm
          · intro c n h; cases h
        · rw [if_neg h5]
          refine ⟨by simp [h5], ?_, ?_⟩
          · intro e he; cases he
          · intro c n h
            injection h with _ h2
            omega
      · rw [if_neg h4, if_neg h4]
        by_cases h6 : t.length + 1 < 9
        · rw [if_pos h6]
          refine ⟨by simp [h6], ?_, ?_⟩
          · intro e he
            injection he with he
            exact he.symm
          · intro c n h; cases h
        · rw [if_neg h6]
          refine ⟨by simp [h6], ?_, ?_⟩
          · intro e he; cases he
          · intro c n h
            injection h with _ h2
            omega

/-- Witness for C4 at a concrete input. -/
theorem C4_decode_errors_witness :
    CompactSize.from_bytes [0xFD, 5] = .err .InsufficientBytes :=
  ((C4_decode_errors.2 0xFD [5] (by decide)).1).mpr (by decide)

/-- C5: decoding accepts all four tier encodings, minimal or not, and
reproduces the encoded value; in particular `[0xFD, 0x05, 0x00]` decodes
to value 5 with 3 bytes consumed. -/
theorem C5_lenient :
    (∀ (b : Nat) (rest : List Nat), b ≤ 0xFC →
      CompactSize.from_bytes (b :: rest) = .ok (CompactSize.new b) 1) ∧
    (∀ (n : Nat) (rest : List Nat), n < 2 ^ 16 →
      CompactSize.from_bytes (0xFD :: (toLE 2 n ++ rest)) = .ok (CompactSize.new n) 3) ∧
    (∀ (n : Nat) (rest : List Nat), n < 2 ^ 32 →
      CompactSize.from_bytes (0xFE :: (toLE 4 n ++ rest)) = .ok (CompactSize.new n) 5) ∧
    (∀ (n : Nat) (rest : List Nat), n < 2 ^ 64 →
      CompactSize.from_bytes (0xFF :: (toLE 8 n ++ rest)) = .ok (CompactSize.new n) 9) ∧
    CompactSize.from_bytes [0xFD, 0x05, 0x00] = .ok (CompactSize.new 5) 3 :=
  ⟨fun b rest hb => cs_decode_tier1 b hb rest,
    fun n rest h => cs_decode_tier3 n h rest,
    fun n rest h => cs_decode_tier5 n h rest,
    fun n rest h => cs_decode_tier9 n h rest,
    by decide⟩

/-- Witness for C5 at a concrete input. -/
theorem C5_lenient_witness :
    CompactSize.from_bytes (0xFD :: (toLE 2 5 ++ [])) = .ok (CompactSize.new 5) 3 :=
  C5_lenient.2.1 5 [] (by decide)

/-- C6 counterexample: the 64-character string AAA…A is made only of
characters outside the lowercase hex alphabet, yet it deserializes
successfully — refuting the claim that any string whose alphabet differs
from 64-character lowercase hexadecimal is rejected. -/
theorem C6_counterexample :
    (∀ ch ∈ List.replicate 64 'A', ¬ isLowerHexDigit ch) ∧
    Txid.deserialize (List.replicate 64 'A') = .ok ⟨List.replicate 32 0xAA⟩ := by
  exact ⟨by decide, rfl⟩

/-- C6 (amended): serializing a 32-byte Txid yields a 64-character
lowercase hex string and deserializing it returns the original bytes;
deserialization rejects with InvalidFormat every string whose length is
not exactly 64 (odd lengths fail hex decoding, even lengths other than 64
decode to a byte count other than 32 — in particular 63- and 65-character
strings fail), every hex string whose decoded byte length is not 32, and
every string containing a non-hex character — but hex digits of either
case are accepted, so the rejected alphabet is only the non-hex
characters, not uppercase hex. -/
theorem C6_txid_hex :
    (∀ t : Txid, t.wf →
      (Txid.serialize t).length = 64 ∧
      (∀ ch ∈ Txid.serialize t, isLowerHexDigit ch) ∧
      Txid.deserialize (Txid.serialize t) = .ok t) ∧
    (∀ s : List Char, s.length ≠ 64 → Txid.deserialize s = .error .InvalidFormat) ∧
    (∀ s : List Char, s.length = 63 ∨ s.length = 65 →
      Txid.deserialize s = .error .InvalidFormat) ∧
    (∀ (s : List Char) (bs : List Nat), hexDecode s = some bs → bs.length ≠ 32 →
      Txid.deserialize s = .error .InvalidFormat) ∧
    (∀ (s : List Char) (c : Char), c ∈ s → hexDigitVal c = none →
      Txid.deserialize s = .error .InvalidFormat) := by
  refine ⟨?_, ?_, ?_, ?_, ?_⟩
  · intro t hwf
    exact ⟨txid_serialize_length t hwf, hexEncode_lower t.bytes hwf.2,
      txid_deserialize_serialize t hwf⟩
  · exact txid_deserialize_wrong_length
  · intro s h
    exact txid_deserialize_wrong_length s (by omega)
  · intro s bs hd hne
    unfold Txid.deserialize
    rw [hd]
    dsimp only
    rw [if_pos hne]
  · exact txid_deserialize_badchar

/-- Witness for C6 at a concrete input. -/
theorem C6_txid_hex_witness :
    Txid.deserialize (Txid.serialize ⟨List.replicate 32 0⟩) =
      .ok ⟨List.replicate 32 0⟩ :=
  (C6_txid_hex.1 ⟨List.replicate 32 0⟩ (by decide)).2.2

/-- C7 counterexample: decoding the example's byte sequence consumes 50
bytes (4 version + 1 count + 36 outpoint + 1 empty-script prefix +
4 sequence + 4 lock time), not the 45 the claim states. -/
theorem C7_counterexample :
    BitcoinTransaction.from_bytes exampleTxBytes = .ok exampleTx 50 ∧
    BitcoinTransaction.from_bytes exampleTxBytes ≠ .ok exampleTx 45 := by
  exact ⟨by decide, by decide⟩

/-- C7 (amended): the worked transaction encodes to exactly the listed
concatenation, and decoding that byte sequence reproduces the structure
and reports total consumed length 50 (the length of the encoding). -/
theorem C7_worked_example :
    exampleTx.to_bytes = exampleTxBytes ∧
    BitcoinTransaction.from_bytes exampleTxBytes = .ok exampleTx 50 ∧
    exampleTxBytes.length = 50 := by
  exact ⟨by decide, by decide, by decide⟩

/-- C8: the transaction with version 1, no inputs and lock time 0 encodes
to exactly the 9 bytes 01 00 00 00 00 00 00 00 00. -/
theorem C8_empty_tx :
    (BitcoinTransaction.new 1 [] 0).to_bytes =
      [0x01, 0x00, 0x00, 0x00, 0x00, 0x00, 0x00, 0x00, 0x00] := by decide

/-- C9 (code bug): on the 9-byte buffer FF FF FF FF FF FF FF FF FF the
decoded length prefix is 2^64 - 1, the usize sum `consumed + value` wraps
to 8, the length check 9 < 8 passes, and the slice `bytes[9..8]` panics —
instead of returning the InsufficientBytes error the spec prescribes. -/
theorem C9_script_panic :
    Script.from_bytes (0xFF :: List.replicate 8 0xFF) = .panic ∧
    fromLE (List.replicate 8 0xFF) = 2 ^ 64 - 1 := by
  exact ⟨by decide, by decide⟩

/-- C10: decoding depends only on the consumed bytes — appending any
suffix to a successfully decoded buffer leaves the result unchanged, for
every component. -/
theorem C10_trailing_bytes :
    (∀ (B S : List Nat) (c : CompactSize) (n : Nat),
      CompactSize.from_bytes B = .ok c n →
        CompactSize.from_bytes (B ++ S) = .ok c n) ∧
    (∀ (B S : List Nat) (o : OutPoint) (n : Nat),
      OutPoint.from_bytes B = .ok o n →
        OutPoint.from_bytes (B ++ S) = .ok o n) ∧
    (∀ (B S : List Nat) (s : Script) (n : Nat),
      Script.from_bytes B = .ok s n →
        Script.from_bytes (B ++ S) = .ok s n) ∧
    (∀ (B S : List Nat) (i : TransactionInput) (n : Nat),
      TransactionInput.from_bytes B = .ok i n →
        TransactionInput.from_bytes (B ++ S) = .ok i n) ∧
    (∀ (B S : List Nat) (tx : BitcoinTransaction) (n : Nat),
      BitcoinTransaction.from_bytes B = .ok tx n →
        BitcoinTransaction.from_bytes (B ++ S) = .ok tx n) :=
  ⟨cs_decode_ext, op_decode_ext, script_decode_ext, txin_decode_ext, tx_decode_ext⟩

/-- Witness for C10 at a concrete input. -/
theorem C10_trailing_bytes_witness :
    CompactSize.from_bytes ([0xFC] ++ [1, 2, 3]) = .ok (CompactSize.new 0xFC) 1 :=
  C10_trailing_bytes.1 [0xFC] [1, 2, 3] (CompactSize.new 0xFC) 1 (by decide)

end BtcCodec
